/-
Verification of the null-bitmap-planner query-plan rewriting engine.

The development shallowly embeds the engine's IR and rewriting
constructors from `src/main.rs`:

* `Expr` / `RelExpr` mirror the two Rust enums (scalar expressions and
  relational plans); Rust's `HashSet<usize>` of column ids becomes
  `Finset Nat`, `Vec` becomes `List`.
* The pure analyses `Expr.free`, `Expr.bound_by`, `Expr.has_subquery`,
  `RelExpr.att`, `RelExpr.free`, `RelExpr.has_subquery` are direct
  structural translations.
* The rewriting constructors `select` and `join` are translated as
  terminating Lean functions (`join` recurses on the shrinking predicate
  list, using the same `swap_remove` discipline as the Rust loop).
* The mutually recursive constructor cluster `map` / `hoist` /
  `flatmap` / `project` is translated with an explicit fuel parameter;
  the mutable id allocator (`State::next`) becomes an explicitly
  threaded counter, and the two panicking paths of `hoist`
  (`assert!(att.len() == 1)` and `unimplemented!`) become the
  distinguished error values `RErr.arity` and `RErr.notImplemented`.
  Rule toggles (`State::enabled`) become a record of booleans fixed for
  the whole construction, matching the single-session usage in `main`.
-/
import Mathlib

/-- Rust `i64`; the embedding uses unbounded integers since the engine
never performs arithmetic on literal values. -/
abbrev I64 := Int

/-- The two rewrite rules of the engine (Rust enum `Rule`). -/
inductive Rule where
  | Hoist
  | Decorrelate
deriving DecidableEq

/-- The rule-toggle part of Rust `State`: which rules are enabled.  The
counter `next_id` is threaded explicitly through the constructor
cluster instead. -/
structure State where
  hoistOn : Bool
  decorrelateOn : Bool
deriving DecidableEq

/-- Rust `State::enabled`. -/
def State.enabled (s : State) (r : Rule) : Bool :=
  match r with
  | .Hoist => s.hoistOn
  | .Decorrelate => s.decorrelateOn

mutual
/-- Scalar expression IR, mirroring Rust `enum Expr`. -/
inductive Expr where
  | ColRef (id : Nat)
  | Int (val : I64)
  | Eq (left right : Expr)
  | Plus (left right : Expr)
  | Subquery (expr : RelExpr)

/-- Relational plan IR, mirroring Rust `enum RelExpr`. -/
inductive RelExpr where
  | Scan (table_name : String) (column_names : List Nat)
  | Select (src : RelExpr) (predicates : List Expr)
  | Join (left right : RelExpr) (predicates : List Expr)
  | Project (src : RelExpr) (cols : Finset Nat)
  | Map (input : RelExpr) (exprs : List (Nat × Expr))
  | FlatMap (input : RelExpr) (func : RelExpr)
end

/-- The ids introduced by a `Map` assignment list, as a set. -/
def assignIds (exprs : List (Nat × Expr)) : Finset Nat :=
  (exprs.map Prod.fst).toFinset

/-- Rust `RelExpr::att`: the set of column ids a plan node outputs. -/
def RelExpr.att : RelExpr → Finset Nat
  | .Scan _ column_names => column_names.toFinset
  | .Select src _ => src.att
  | .Join l r _ => l.att ∪ r.att
  | .Project _ cols => cols
  | .Map input exprs => input.att ∪ assignIds exprs
  | .FlatMap input func => input.att ∪ func.att

mutual
/-- Rust `Expr::free`: the set of column ids referenced by an
expression; a `Subquery` contributes its nested plan's free set. -/
def Expr.free : Expr → Finset Nat
  | .ColRef id => {id}
  | .Int _ => ∅
  | .Eq l r => l.free ∪ r.free
  | .Plus l r => l.free ∪ r.free
  | .Subquery e => RelExpr.free e

/-- Union of `Expr.free` over a predicate list (the `extend` loops of
the Rust `free` implementations). -/
def predsFree : List Expr → Finset Nat
  | [] => ∅
  | e :: es => e.free ∪ predsFree es

/-- Union of `Expr.free` over a `Map` assignment list. -/
def assignsFree : List (Nat × Expr) → Finset Nat
  | [] => ∅
  | (_, e) :: es => e.free ∪ assignsFree es

/-- Rust `RelExpr::free`: referenced columns not supplied by the node's
own children. -/
def RelExpr.free : RelExpr → Finset Nat
  | .Scan _ _ => ∅
  | .Select src preds => (RelExpr.free src ∪ predsFree preds) \ src.att
  | .Join l r preds =>
      (RelExpr.free l ∪ RelExpr.free r ∪ predsFree preds) \ (l.att ∪ r.att)
  | .Project src _ => RelExpr.free src
  | .Map input exprs => (RelExpr.free input ∪ assignsFree exprs) \ input.att
  | .FlatMap input func => (RelExpr.free input ∪ RelExpr.free func) \ input.att
end

/-- Rust `Expr::bound_by`: `free() ⊆ att(rel)`. -/
def Expr.bound_by (e : Expr) (rel : RelExpr) : Bool :=
  e.free ⊆ rel.att

/-- Rust `Expr::has_subquery`. -/
def Expr.has_subquery : Expr → Bool
  | .ColRef _ => false
  | .Int _ => false
  | .Eq l r => l.has_subquery || r.has_subquery
  | .Plus l r => l.has_subquery || r.has_subquery
  | .Subquery _ => true

/-- Rust `RelExpr::has_subquery` (note: faithfully to the source, it
looks only at `Map` assignment expressions, not at `Select`/`Join`
predicates). -/
def RelExpr.has_subquery : RelExpr → Bool
  | .Scan _ _ => false
  | .Select src _ => src.has_subquery
  | .Join l r _ => l.has_subquery || r.has_subquery
  | .Map input exprs =>
      input.has_subquery || exprs.any (fun p => p.2.has_subquery)
  | .Project src _ => src.has_subquery
  | .FlatMap input func => input.has_subquery || func.has_subquery

/-- Rust `RelExpr::scan`. -/
def RelExpr.scan (table_name : String) (column_names : List Nat) : RelExpr :=
  .Scan table_name column_names

/-- Rust `RelExpr::select`: merging smart constructor — appending to an
existing root `Select`'s predicate list and re-applying to its source. -/
def RelExpr.select : RelExpr → List Expr → RelExpr
  | .Select src preds0, predicates => RelExpr.select src (preds0 ++ predicates)
  | self, predicates => .Select self predicates

/-- Rust `Vec::swap_remove(i)` on lists: remove index `i`, moving the
last element into its place. -/
def swapRemove (xs : List α) (i : Nat) : List α :=
  match xs.getLast? with
  | none => xs
  | some a => (xs.set i a).dropLast

/-- The scanning loop body of Rust `RelExpr::join`: find the first
predicate (from index `i` upward) that is bound by one side, testing
the left side first; return the side (`true` = left), its index in the
full list, and the predicate itself. -/
def findPush (l r : RelExpr) : List Expr → Nat → Option (Bool × Nat × Expr)
  | [], _ => none
  | p :: ps, i =>
    if p.bound_by l then some (true, i, p)
    else if p.bound_by r then some (false, i, p)
    else findPush l r ps (i + 1)

/-- The recursion of Rust `RelExpr::join`: push the first one-side-bound
predicate down as a `select` on that side (removing it from the list
with `swap_remove`) and restart; build the `Join` node when no
predicate is pushable.  Each push removes exactly one predicate, so
`fuel = preds.length` makes the recursion exhaustive. -/
def joinLoop (l r : RelExpr) (preds : List Expr) (fuel : Nat) : RelExpr :=
  match fuel with
  | 0 => .Join l r preds
  | f + 1 =>
    match findPush l r preds 0 with
    | none => .Join l r preds
    | some (side, i, p) =>
      if side then joinLoop (l.select [p]) r (swapRemove preds i) f
      else joinLoop l (r.select [p]) (swapRemove preds i) f

/-- Rust `RelExpr::join`: predicate-pushdown smart constructor. -/
def RelExpr.join (l r : RelExpr) (predicates : List Expr) : RelExpr :=
  joinLoop l r predicates predicates.length

/-- Rust `att.iter().next().unwrap()` in `hoist`: pick the element of a
singleton attribute set (the minimum, for determinism; at every use
site the set has exactly one element, so the choice is unique). -/
def pickOne (s : Finset Nat) : Nat :=
  (Finset.min s).untop' 0

/-- Failure conditions of the constructor cluster.  `arity` embeds the
Rust panic `assert!(att.len() == 1)` in `hoist`'s `Subquery` case;
`notImplemented` embeds the `unimplemented!` panic of `hoist`'s
fallthrough arm; `outOfFuel` is an artifact of the fuel embedding and
corresponds to no source behaviour. -/
inductive RErr where
  | arity
  | notImplemented
  | outOfFuel
deriving DecidableEq

/-- The scanning loop of Rust `RelExpr::map`: find the first assignment
whose expression contains a subquery and `swap_remove` it, returning
the removed `(id, expr)` together with the remaining list.  The cons
branch agrees with `swapRemove (x :: xs) (i + 1) = x :: swapRemove xs i`
for the nonempty lists on which a hit can occur. -/
def extractSubq : List (Nat × Expr) → Option (Nat × Expr × List (Nat × Expr))
  | [] => none
  | x :: xs =>
    if x.2.has_subquery then some (x.1, x.2, swapRemove (x :: xs) 0)
    else
      match extractSubq xs with
      | none => none
      | some (i, e, rest) => some (i, e, x :: rest)

mutual
/-- Rust `RelExpr::hoist`: eliminate one scalar subquery from the
expression assigned to column `id` by rewriting the plan.  `ctr` is the
value of the allocator `State::next_id`; the returned counter reflects
the `state.next()` calls performed. -/
def RelExpr.hoist (st : State) (fuel : Nat) (self : RelExpr) (id : Nat)
    (e : Expr) (ctr : Nat) : Except RErr (RelExpr × Nat) :=
  match fuel with
  | 0 => .error .outOfFuel
  | f + 1 =>
    match e with
    | .Subquery plan =>
        if plan.att.card = 1 then
          do
            let (rhs, c1) ← RelExpr.map st f plan [(id, .ColRef (pickOne plan.att))] ctr
            RelExpr.flatmap st f self rhs c1
        else .error .arity
    | .Plus left right =>
        do
          let (p1, c1) ← RelExpr.hoist st f self ctr left (ctr + 2)
          let (p2, c2) ← RelExpr.hoist st f p1 (ctr + 1) right c1
          let (p3, c3) ← RelExpr.map st f p2
            [(id, Expr.Plus (.ColRef ctr) (.ColRef (ctr + 1)))] c2
          RelExpr.project st f p3 (self.att ∪ {id}) c3
    | .Int v => RelExpr.map st f self [(id, .Int v)] ctr
    | .ColRef c => RelExpr.map st f self [(id, .ColRef c)] ctr
    | .Eq _ _ => .error .notImplemented
termination_by structural fuel

/-- Rust `RelExpr::map`: smart constructor for computed columns; with
`Hoist` enabled, the first subquery-bearing assignment is removed, the
remaining assignments are mapped first, and the removed one is hoisted
on top of that result. -/
def RelExpr.map (st : State) (fuel : Nat) (self : RelExpr)
    (exprs : List (Nat × Expr)) (ctr : Nat) : Except RErr (RelExpr × Nat) :=
  match fuel with
  | 0 => .error .outOfFuel
  | f + 1 =>
    if exprs.isEmpty then .ok (self, ctr)
    else
      if st.enabled .Hoist then
        match extractSubq exprs with
        | some (id, e, rest) =>
          do
            let (p, c1) ← RelExpr.map st f self rest ctr
            RelExpr.hoist st f p id e c1
        | none => .ok (.Map self exprs, ctr)
      else .ok (.Map self exprs, ctr)
termination_by structural fuel

/-- Rust `RelExpr::flatmap`: dependent-join constructor; with
`Decorrelate` enabled it rewrites an uncorrelated `func` to a cross
join and pulls `Project`/`Map` nodes of `func` above the dependent
join. -/
def RelExpr.flatmap (st : State) (fuel : Nat) (self : RelExpr)
    (func : RelExpr) (ctr : Nat) : Except RErr (RelExpr × Nat) :=
  match fuel with
  | 0 => .error .outOfFuel
  | f + 1 =>
    if st.enabled .Decorrelate then
      if func.free = ∅ then .ok (self.join func [], ctr)
      else
        match func with
        | .Project src cols =>
            do
              let (p, c1) ← RelExpr.flatmap st f self src ctr
              RelExpr.project st f p (cols ∪ self.att) c1
        | .Map input exprs =>
            do
              let (p, c1) ← RelExpr.flatmap st f self input ctr
              RelExpr.map st f p exprs c1
        | _ => .ok (.FlatMap self func, ctr)
    else .ok (.FlatMap self func, ctr)
termination_by structural fuel

/-- Rust `RelExpr::project`: projection constructor with the
push-through-map rule — if `self` is a `Map` whose assignments' free
variables cover `cols`, project the map's input instead and re-apply
the map. -/
def RelExpr.project (st : State) (fuel : Nat) (self : RelExpr)
    (cols : Finset Nat) (ctr : Nat) : Except RErr (RelExpr × Nat) :=
  match fuel with
  | 0 => .error .outOfFuel
  | f + 1 =>
    match self with
    | .Map input exprs =>
        if cols ⊆ assignsFree exprs then
          do
            let (p, c1) ← RelExpr.project st f input cols ctr
            RelExpr.map st f p exprs c1
        else .ok (.Project (.Map input exprs) cols, ctr)
    | _ => .ok (.Project self cols, ctr)
termination_by structural fuel
end

/-- Shape observation: is the root node a `Select`? -/
def RelExpr.isSelectNode : RelExpr → Bool
  | .Select _ _ => true
  | _ => false

/-- The predicates accumulated along the chain of directly-nested
`Select` nodes at the root, in the order `RelExpr.select` merges them. -/
def selChainPreds : RelExpr → List Expr
  | .Select src preds => selChainPreds src ++ preds
  | _ => []

/-- The first non-`Select` node below the root `Select` chain. -/
def stripSel : RelExpr → RelExpr
  | .Select src _ => stripSel src
  | r => r

/-- Shape observation: the tree contains no `Select` node sitting
directly on another `Select` node (subquery plans inside scalar
expressions are separate trees and are not inspected). -/
def noNestedSelects : RelExpr → Bool
  | .Scan _ _ => true
  | .Select src _ => !src.isSelectNode && noNestedSelects src
  | .Join l r _ => noNestedSelects l && noNestedSelects r
  | .Project src _ => noNestedSelects src
  | .Map input _ => noNestedSelects input
  | .FlatMap input func => noNestedSelects input && noNestedSelects func

/-- Well-formedness of a plan tree: `Map`-introduced ids are fresh
(not referenced by the map's own assignment expressions and not free in
its input), `Project` keeps only columns its source provides, `Join`
children have disjoint attribute sets, and a `FlatMap` func's
attributes are not free in the outer input — the freshness discipline
the Identifier Allocator maintains for constructor-built plans. -/
def RelExpr.wf : RelExpr → Bool
  | .Scan _ _ => true
  | .Select src _ => src.wf
  | .Join l r _ => l.wf && r.wf && decide (l.att ∩ r.att = ∅)
  | .Project src cols => src.wf && decide (cols ⊆ src.att)
  | .Map input exprs =>
      input.wf && decide (assignIds exprs ∩ (input.free ∪ assignsFree exprs) = ∅)
  | .FlatMap input func =>
      input.wf && func.wf && decide (func.att ∩ input.free = ∅)

/-! ### Lemmas about `swapRemove` and `extractSubq` -/

theorem swapRemove_length (xs : List α) (i : Nat) (h : xs ≠ []) :
    (swapRemove xs i).length = xs.length - 1 := by
  unfold swapRemove
  match hl : xs.getLast? with
  | none => exact absurd (List.getLast?_eq_none_iff.mp hl) h
  | some a => simp

theorem swapRemove_perm (xs : List α) (i : Nat) (h : i < xs.length) :
    xs.Perm (xs.get ⟨i, h⟩ :: swapRemove xs i) := by
  induction xs generalizing i with
  | nil => simp at h
  | cons x xs ih =>
    cases xs with
    | nil =>
      have hi0 : i = 0 := by simp at h; omega
      subst hi0
      simp [swapRemove]
    | cons y ys =>
      have hg : (y :: ys).getLast? = some ((y :: ys).getLast (by simp)) := by
        simp [List.getLast?_eq_getLast]
      cases i with
      | zero =>
        have hstep : swapRemove (x :: y :: ys) 0
            = (y :: ys).getLast (by simp) :: (y :: ys).dropLast := by
          simp only [swapRemove, List.getLast?_cons_cons]
          rw [hg]
          simp only [List.set]
          rw [List.dropLast_cons_of_ne_nil (by simp)]
        rw [hstep]
        have hget : (x :: y :: ys).get ⟨0, h⟩ = x := rfl
        rw [hget]
        refine List.Perm.cons x ?_
        conv_lhs => rw [← List.dropLast_append_getLast (l := y :: ys) (by simp)]
        exact List.perm_append_singleton _ _
      | succ i =>
        have hi : i < (y :: ys).length := by simp at h ⊢; omega
        have hstep : swapRemove (x :: y :: ys) (i + 1) = x :: swapRemove (y :: ys) i := by
          simp only [swapRemove, List.getLast?_cons_cons]
          rw [hg]
          simp only [List.set]
          rw [List.dropLast_cons_of_ne_nil (by simp)]
        have hget : (x :: y :: ys).get ⟨i + 1, h⟩ = (y :: ys).get ⟨i, hi⟩ := rfl
        rw [hstep, hget]
        exact ((ih i hi).cons x).trans (List.Perm.swap _ _ _)


theorem extractSubq_spec :
    ∀ {l : List (Nat × Expr)} {i : Nat} {e : Expr} {rest : List (Nat × Expr)},
      extractSubq l = some (i, e, rest) →
      e.has_subquery = true ∧ l.Perm ((i, e) :: rest) := by
  intro l
  induction l with
  | nil => intro i e rest h; simp [extractSubq] at h
  | cons x xs ih =>
    intro i e rest h
    by_cases hs : x.2.has_subquery
    · simp only [extractSubq, if_pos hs, Option.some.injEq, Prod.mk.injEq] at h
      obtain ⟨h1, h2, h3⟩ := h
      subst h1; subst h2; subst h3
      refine ⟨hs, ?_⟩
      have hp := swapRemove_perm (x :: xs) 0 (by simp)
      simpa using hp
    · simp only [extractSubq, if_neg hs] at h
      match hx : extractSubq xs with
      | none => rw [hx] at h; simp at h
      | some (i', e', rest') =>
        rw [hx] at h
        simp only [Option.some.injEq, Prod.mk.injEq] at h
        obtain ⟨h1, h2, h3⟩ := h
        obtain ⟨he, hperm⟩ := ih hx
        subst h1; subst h2; subst h3
        refine ⟨he, ?_⟩
        exact (hperm.cons x).trans (List.Perm.swap _ _ _)

/-! ### Lemmas about `select` and `join` -/

theorem att_select (r : RelExpr) (preds : List Expr) :
    (r.select preds).att = r.att := by
  induction r, preds using RelExpr.select.induct with
  | case1 src preds0 predicates ih => rw [RelExpr.select, ih]; rfl
  | case2 self predicates h => rw [RelExpr.select.eq_def]; split <;> simp_all [RelExpr.att]

theorem selChainPreds_select (r : RelExpr) (preds : List Expr) :
    selChainPreds (r.select preds) = selChainPreds r ++ preds := by
  induction r, preds using RelExpr.select.induct with
  | case1 src preds0 predicates ih =>
    rw [RelExpr.select, ih]
    simp [selChainPreds]
  | case2 self predicates h =>
    rw [RelExpr.select.eq_def]
    split
    · exact absurd rfl (h _ _)
    · cases self <;> simp_all [selChainPreds]

theorem stripSel_isSelectNode (r : RelExpr) :
    (stripSel r).isSelectNode = false := by
  induction r using stripSel.induct with
  | case1 src preds ih => rw [stripSel]; exact ih
  | case2 r h =>
    rw [stripSel.eq_def]
    split
    · exact absurd rfl (h _ _)
    · cases r <;> simp_all [RelExpr.isSelectNode]

theorem select_eq (r : RelExpr) (preds : List Expr) :
    r.select preds = .Select (stripSel r) (selChainPreds r ++ preds) := by
  induction r, preds using RelExpr.select.induct with
  | case1 src preds0 predicates ih =>
    rw [RelExpr.select, ih]
    simp [stripSel, selChainPreds]
  | case2 self predicates h =>
    rw [RelExpr.select.eq_def]
    split
    · exact absurd rfl (h _ _)
    · cases self <;> simp_all [stripSel, selChainPreds]

theorem bound_by_select (q : Expr) (r : RelExpr) (ps : List Expr) :
    q.bound_by (r.select ps) = q.bound_by r := by
  unfold Expr.bound_by
  rw [att_select]

theorem noNestedSelects_stripSel (r : RelExpr) (h : noNestedSelects r = true) :
    noNestedSelects (stripSel r) = true := by
  induction r using stripSel.induct with
  | case1 src preds ih =>
    rw [noNestedSelects] at h
    rw [stripSel]
    exact ih (by simp_all)
  | case2 r hne =>
    rw [stripSel.eq_def]
    split
    · exact absurd rfl (hne _ _)
    · exact h

theorem findPush_none (l r : RelExpr) :
    ∀ (ps : List Expr) (i : Nat), findPush l r ps i = none →
      ∀ p ∈ ps, p.bound_by l = false ∧ p.bound_by r = false := by
  intro ps
  induction ps with
  | nil => intro i _ p hp; simp at hp
  | cons q qs ih =>
    intro i h p hp
    rw [findPush] at h
    by_cases hbl : q.bound_by l
    · simp [hbl] at h
    · by_cases hbr : q.bound_by r
      · simp [hbl, hbr] at h
      · rw [if_neg hbl, if_neg hbr] at h
        rcases List.mem_cons.mp hp with hq | hq
        · subst hq
          exact ⟨Bool.eq_false_iff.mpr hbl, Bool.eq_false_iff.mpr hbr⟩
        · exact ih (i + 1) h p hq

theorem findPush_some (l r : RelExpr) :
    ∀ (ps : List Expr) (i : Nat) {side : Bool} {j : Nat} {p : Expr},
      findPush l r ps i = some (side, j, p) →
      ∃ (k : Nat) (hk : k < ps.length), j = i + k ∧ ps.get ⟨k, hk⟩ = p
        ∧ (side = true → p.bound_by l = true)
        ∧ (side = false → p.bound_by l = false ∧ p.bound_by r = true) := by
  intro ps
  induction ps with
  | nil => intro i side j p h; simp [findPush] at h
  | cons q qs ih =>
    intro i side j p h
    rw [findPush] at h
    by_cases hbl : q.bound_by l
    · rw [if_pos hbl] at h
      simp only [Option.some.injEq, Prod.mk.injEq] at h
      obtain ⟨hs, hj, hp⟩ := h
      subst hs; subst hj; subst hp
      exact ⟨0, by simp, by omega, rfl, fun _ => hbl, by simp⟩
    · rw [if_neg hbl] at h
      by_cases hbr : q.bound_by r
      · rw [if_pos hbr] at h
        simp only [Option.some.injEq, Prod.mk.injEq] at h
        obtain ⟨hs, hj, hp⟩ := h
        subst hs; subst hj; subst hp
        exact ⟨0, by simp, by omega, rfl, by simp,
          fun _ => ⟨Bool.eq_false_iff.mpr hbl, hbr⟩⟩
      · rw [if_neg hbr] at h
        obtain ⟨k, hk, hj, hget, hl, hr⟩ := ih (i + 1) h
        refine ⟨k + 1, by simpa using Nat.succ_lt_succ hk, by omega, ?_, hl, hr⟩
        simpa using hget

theorem joinLoop_spec :
    ∀ (fuel : Nat) (l r : RelExpr) (preds : List Expr), preds.length ≤ fuel →
    ∃ L' R' rem, joinLoop l r preds fuel = .Join L' R' rem
      ∧ L'.att = l.att ∧ R'.att = r.att
      ∧ (∀ p ∈ rem, p ∈ preds ∧ p.bound_by l = false ∧ p.bound_by r = false)
      ∧ (∀ p ∈ preds, p.bound_by l = false → p.bound_by r = false → p ∈ rem)
      ∧ (∀ p ∈ preds, p.bound_by l = true → p ∈ selChainPreds L')
      ∧ (∀ p ∈ preds, p.bound_by l = false → p.bound_by r = true → p ∈ selChainPreds R')
      ∧ (∀ p ∈ selChainPreds l, p ∈ selChainPreds L')
      ∧ (∀ p ∈ selChainPreds r, p ∈ selChainPreds R') := by
  intro fuel
  induction fuel with
  | zero =>
    intro l r preds hlen
    have hnil : preds = [] := List.length_eq_zero.mp (Nat.le_zero.mp hlen)
    subst hnil
    exact ⟨l, r, [], rfl, rfl, rfl, by simp, by simp, by simp, by simp,
      fun p hp => hp, fun p hp => hp⟩
  | succ f ihf =>
    intro l r preds hlen
    rw [joinLoop]
    match hfp : findPush l r preds 0 with
    | none =>
      refine ⟨l, r, preds, rfl, rfl, rfl, ?_, fun p hp _ _ => hp, ?_, ?_,
        fun p hp => hp, fun p hp => hp⟩
      · intro p hp
        obtain ⟨h1, h2⟩ := findPush_none l r preds 0 hfp p hp
        exact ⟨hp, h1, h2⟩
      · intro p hp hb
        obtain ⟨h1, _⟩ := findPush_none l r preds 0 hfp p hp
        rw [hb] at h1; cases h1
      · intro p hp _ hb
        obtain ⟨_, h2⟩ := findPush_none l r preds 0 hfp p hp
        rw [hb] at h2; cases h2
    | some (side, j, p) =>
      obtain ⟨k, hk, hj, hget, hsl, hsr⟩ := findPush_some l r preds 0 hfp
      have hj0 : k = j := by omega
      subst hj0
      have hperm : preds.Perm (p :: swapRemove preds k) := hget ▸ swapRemove_perm preds k hk
      have hlen' : (swapRemove preds k).length ≤ f := by
        have hne : preds ≠ [] := by
          intro he; subst he; simp at hk
        have := swapRemove_length preds k hne
        have hpos : 0 < preds.length := by omega
        omega
      cases side with
      | true =>
        have hbl : p.bound_by l = true := hsl rfl
        simp only [if_pos]
        obtain ⟨L', R', rem, h1, h2, h3, h4, h5, h6, h7, h8, h9⟩ :=
          ihf (l.select [p]) r (swapRemove preds k) hlen'
        refine ⟨L', R', rem, h1, by rw [h2, att_select], h3, ?_, ?_, ?_, ?_, ?_, h9⟩
        · intro q hq
          obtain ⟨hq1, hq2, hq3⟩ := h4 q hq
          rw [bound_by_select] at hq2
          exact ⟨hperm.mem_iff.mpr (List.mem_cons_of_mem _ hq1), hq2, hq3⟩
        · intro q hq hql hqr
          rcases List.mem_cons.mp (hperm.mem_iff.mp hq) with hq' | hq'
          · subst hq'; rw [hbl] at hql; cases hql
          · exact h5 q hq' (by rw [bound_by_select]; exact hql) hqr
        · intro q hq hql
          rcases List.mem_cons.mp (hperm.mem_iff.mp hq) with hq' | hq'
          · subst hq'
            exact h8 q (by rw [selChainPreds_select]; simp)
          · exact h6 q hq' (by rw [bound_by_select]; exact hql)
        · intro q hq hql hqr
          rcases List.mem_cons.mp (hperm.mem_iff.mp hq) with hq' | hq'
          · subst hq'; rw [hbl] at hql; cases hql
          · exact h7 q hq' (by rw [bound_by_select]; exact hql) hqr
        · intro q hq
          refine h8 q ?_
          rw [selChainPreds_select]
          exact List.mem_append_left _ hq
      | false =>
        obtain ⟨hbl, hbr⟩ := hsr rfl
        simp only [Bool.false_eq_true, if_neg]
        obtain ⟨L', R', rem, h1, h2, h3, h4, h5, h6, h7, h8, h9⟩ :=
          ihf l (r.select [p]) (swapRemove preds k) hlen'
        refine ⟨L', R', rem, h1, h2, by rw [h3, att_select], ?_, ?_, ?_, ?_, h8, ?_⟩
        · intro q hq
          obtain ⟨hq1, hq2, hq3⟩ := h4 q hq
          rw [bound_by_select] at hq3
          exact ⟨hperm.mem_iff.mpr (List.mem_cons_of_mem _ hq1), hq2, hq3⟩
        · intro q hq hql hqr
          rcases List.mem_cons.mp (hperm.mem_iff.mp hq) with hq' | hq'
          · subst hq'; rw [hbr] at hqr; cases hqr
          · exact h5 q hq' hql (by rw [bound_by_select]; exact hqr)
        · intro q hq hql
          rcases List.mem_cons.mp (hperm.mem_iff.mp hq) with hq' | hq'
          · subst hq'; rw [hbl] at hql; cases hql
          · exact h6 q hq' hql
        · intro q hq hql hqr
          rcases List.mem_cons.mp (hperm.mem_iff.mp hq) with hq' | hq'
          · subst hq'
            exact h9 q (by rw [selChainPreds_select]; simp)
          · exact h7 q hq' hql (by rw [bound_by_select]; exact hqr)
        · intro q hq
          refine h9 q ?_
          rw [selChainPreds_select]
          exact List.mem_append_left _ hq

theorem att_join (l r : RelExpr) (preds : List Expr) :
    (RelExpr.join l r preds).att = l.att ∪ r.att := by
  obtain ⟨L', R', rem, h1, h2, h3, _⟩ := joinLoop_spec preds.length l r preds le_rfl
  rw [RelExpr.join, h1]
  show L'.att ∪ R'.att = _
  rw [h2, h3]

/-! ### Attribute-set lower bounds for the constructor cluster -/

theorem pickOne_singleton (x : Nat) : pickOne {x} = x := by
  rw [pickOne, Finset.min_singleton]
  rfl

theorem assignIds_perm {l₁ l₂ : List (Nat × Expr)} (h : l₁.Perm l₂) :
    assignIds l₁ = assignIds l₂ := by
  unfold assignIds
  exact List.toFinset_eq_of_perm _ _ (h.map Prod.fst)

theorem cluster_att_mono (st : State) :
    ∀ fuel : Nat,
      (∀ self exprs ctr p c, RelExpr.map st fuel self exprs ctr = .ok (p, c) →
        self.att ∪ assignIds exprs ⊆ p.att)
      ∧ (∀ self i e ctr p c, RelExpr.hoist st fuel self i e ctr = .ok (p, c) →
        self.att ∪ {i} ⊆ p.att)
      ∧ (∀ self func ctr p c, RelExpr.flatmap st fuel self func ctr = .ok (p, c) →
        self.att ∪ func.att ⊆ p.att)
      ∧ (∀ self cols ctr p c, RelExpr.project st fuel self cols ctr = .ok (p, c) →
        cols ⊆ p.att) := by
  intro fuel
  induction fuel with
  | zero =>
    refine ⟨fun self exprs ctr p c h => ?_, fun self i e ctr p c h => ?_,
      fun self func ctr p c h => ?_, fun self cols ctr p c h => ?_⟩
    · simp [RelExpr.map] at h
    · simp [RelExpr.hoist] at h
    · simp [RelExpr.flatmap] at h
    · simp [RelExpr.project] at h
  | succ f ih =>
    obtain ⟨ihm, ihh, ihf2, ihp⟩ := ih
    refine ⟨fun self exprs ctr p c h => ?_, fun self i e ctr p c h => ?_,
      fun self func ctr p c h => ?_, fun self cols ctr p c h => ?_⟩
    · -- map
      rw [RelExpr.map] at h
      by_cases he : exprs.isEmpty
      · rw [if_pos he] at h
        simp only [Except.ok.injEq, Prod.mk.injEq] at h
        obtain ⟨h1, _⟩ := h
        subst h1
        have hnil : exprs = [] := List.isEmpty_iff.mp he
        subst hnil
        simp [assignIds]
      · rw [if_neg he] at h
        by_cases hH : st.enabled .Hoist
        · rw [if_pos hH] at h
          match hx : extractSubq exprs with
          | none =>
            rw [hx] at h
            dsimp only at h
            simp only [Except.ok.injEq, Prod.mk.injEq] at h
            obtain ⟨h1, _⟩ := h
            subst h1
            exact Finset.Subset.refl _
          | some (i0, e0, rest) =>
            rw [hx] at h
            dsimp only at h
            cases hm : RelExpr.map st f self rest ctr with
            | error err => rw [hm] at h; simp [Bind.bind, Except.bind] at h
            | ok v =>
              obtain ⟨p1, c1⟩ := v
              rw [hm] at h
              simp only [Bind.bind, Except.bind] at h
              have h5 := ihm self rest ctr p1 c1 hm
              have h6 := ihh p1 i0 e0 c1 p c h
              obtain ⟨_, hperm⟩ := extractSubq_spec hx
              have hids : assignIds exprs = insert i0 (assignIds rest) := by
                rw [assignIds_perm hperm]
                simp [assignIds]
              rw [hids]
              intro x hx'
              rcases Finset.mem_union.mp hx' with hx1 | hx1
              · exact h6 (Finset.mem_union_left _ (h5 (Finset.mem_union_left _ hx1)))
              · rcases Finset.mem_insert.mp hx1 with hx2 | hx2
                · subst hx2
                  exact h6 (Finset.mem_union_right _ (Finset.mem_singleton_self _))
                · exact h6 (Finset.mem_union_left _ (h5 (Finset.mem_union_right _ hx2)))
        · rw [if_neg hH] at h
          simp only [Except.ok.injEq, Prod.mk.injEq] at h
          obtain ⟨h1, _⟩ := h
          subst h1
          exact Finset.Subset.refl _
    · -- hoist
      rw [RelExpr.hoist.eq_def] at h
      cases e with
      | Subquery plan =>
        dsimp only at h
        by_cases hcard : plan.att.card = 1
        · rw [if_pos hcard] at h
          cases hm : RelExpr.map st f plan [(i, Expr.ColRef (pickOne plan.att))] ctr with
          | error err => rw [hm] at h; simp [Bind.bind, Except.bind] at h
          | ok v =>
            obtain ⟨rhs, c1⟩ := v
            rw [hm] at h
            simp only [Bind.bind, Except.bind] at h
            have h5 := ihm plan [(i, Expr.ColRef (pickOne plan.att))] ctr rhs c1 hm
            have h6 := ihf2 self rhs c1 p c h
            intro x hx'
            rcases Finset.mem_union.mp hx' with hx1 | hx1
            · exact h6 (Finset.mem_union_left _ hx1)
            · have hxi : x = i := Finset.mem_singleton.mp hx1
              subst hxi
              have hi : x ∈ rhs.att :=
                h5 (Finset.mem_union_right _ (by simp [assignIds]))
              exact h6 (Finset.mem_union_right _ hi)
        · rw [if_neg hcard] at h
          simp at h
      | Plus left right =>
        dsimp only at h
        cases h1 : RelExpr.hoist st f self ctr left (ctr + 2) with
        | error e1 => rw [h1] at h; simp [Bind.bind, Except.bind] at h
        | ok v1 =>
          obtain ⟨p1, c1⟩ := v1
          rw [h1] at h
          simp only [Bind.bind, Except.bind] at h
          cases h2 : RelExpr.hoist st f p1 (ctr + 1) right c1 with
          | error e2 => rw [h2] at h; simp [Bind.bind, Except.bind] at h
          | ok v2 =>
            obtain ⟨p2, c2⟩ := v2
            rw [h2] at h
            simp only [Bind.bind, Except.bind] at h
            cases h3 : RelExpr.map st f p2
                [(i, Expr.Plus (.ColRef ctr) (.ColRef (ctr + 1)))] c2 with
            | error e3 => rw [h3] at h; simp [Bind.bind, Except.bind] at h
            | ok v3 =>
              obtain ⟨p3, c3⟩ := v3
              rw [h3] at h
              simp only [Bind.bind, Except.bind] at h
              exact ihp p3 (self.att ∪ {i}) c3 p c h
      | Int v =>
        dsimp only at h
        have := ihm self [(i, Expr.Int v)] ctr p c h
        simpa [assignIds] using this
      | ColRef cid =>
        dsimp only at h
        have := ihm self [(i, Expr.ColRef cid)] ctr p c h
        simpa [assignIds] using this
      | Eq l2 r2 =>
        dsimp only at h
        simp at h
    · -- flatmap
      rw [RelExpr.flatmap.eq_def] at h
      dsimp only at h
      by_cases hD : st.enabled .Decorrelate
      · rw [if_pos hD] at h
        by_cases hfree : func.free = ∅
        · rw [if_pos hfree] at h
          simp only [Except.ok.injEq, Prod.mk.injEq] at h
          obtain ⟨h1, _⟩ := h
          subst h1
          rw [att_join]
        · rw [if_neg hfree] at h
          cases func with
          | Project src cols =>
            dsimp only at h
            cases h1 : RelExpr.flatmap st f self src ctr with
            | error e1 => rw [h1] at h; simp [Bind.bind, Except.bind] at h
            | ok v1 =>
              obtain ⟨p1, c1⟩ := v1
              rw [h1] at h
              simp only [Bind.bind, Except.bind] at h
              have h6 := ihp p1 (cols ∪ self.att) c1 p c h
              intro x hx'
              rcases Finset.mem_union.mp hx' with hx1 | hx1
              · exact h6 (Finset.mem_union_right _ hx1)
              · exact h6 (Finset.mem_union_left _ hx1)
          | Map input exprs =>
            dsimp only at h
            cases h1 : RelExpr.flatmap st f self input ctr with
            | error e1 => rw [h1] at h; simp [Bind.bind, Except.bind] at h
            | ok v1 =>
              obtain ⟨p1, c1⟩ := v1
              rw [h1] at h
              simp only [Bind.bind, Except.bind] at h
              have h5 := ihf2 self input ctr p1 c1 h1
              have h6 := ihm p1 exprs c1 p c h
              intro x hx'
              rcases Finset.mem_union.mp hx' with hx1 | hx1
              · exact h6 (Finset.mem_union_left _ (h5 (Finset.mem_union_left _ hx1)))
              · rcases Finset.mem_union.mp hx1 with hx2 | hx2
                · exact h6 (Finset.mem_union_left _ (h5 (Finset.mem_union_right _ hx2)))
                · exact h6 (Finset.mem_union_right _ hx2)
          | Scan t cs =>
            dsimp only at h
            simp only [Except.ok.injEq, Prod.mk.injEq] at h
            obtain ⟨h1, _⟩ := h
            subst h1
            exact Finset.Subset.refl _
          | Select src preds =>
            dsimp only at h
            simp only [Except.ok.injEq, Prod.mk.injEq] at h
            obtain ⟨h1, _⟩ := h
            subst h1
            exact Finset.Subset.refl _
          | Join jl jr preds =>
            dsimp only at h
            simp only [Except.ok.injEq, Prod.mk.injEq] at h
            obtain ⟨h1, _⟩ := h
            subst h1
            exact Finset.Subset.refl _
          | FlatMap fi ff =>
            dsimp only at h
            simp only [Except.ok.injEq, Prod.mk.injEq] at h
            obtain ⟨h1, _⟩ := h
            subst h1
            exact Finset.Subset.refl _
      · rw [if_neg hD] at h
        simp only [Except.ok.injEq, Prod.mk.injEq] at h
        obtain ⟨h1, _⟩ := h
        subst h1
        exact Finset.Subset.refl _
    · -- project
      rw [RelExpr.project.eq_def] at h
      dsimp only at h
      cases self with
      | Map input exprs =>
        dsimp only at h
        by_cases hsub : cols ⊆ assignsFree exprs
        · rw [if_pos hsub] at h
          cases h1 : RelExpr.project st f input cols ctr with
          | error e1 => rw [h1] at h; simp [Bind.bind, Except.bind] at h
          | ok v1 =>
            obtain ⟨p1, c1⟩ := v1
            rw [h1] at h
            simp only [Bind.bind, Except.bind] at h
            have h5 := ihp input cols ctr p1 c1 h1
            have h6 := ihm p1 exprs c1 p c h
            exact fun x hx' => h6 (Finset.mem_union_left _ (h5 hx'))
        · rw [if_neg hsub] at h
          simp only [Except.ok.injEq, Prod.mk.injEq] at h
          obtain ⟨h1, _⟩ := h
          subst h1
          exact Finset.Subset.refl _
      | Scan t cs =>
        dsimp only at h
        simp only [Except.ok.injEq, Prod.mk.injEq] at h
        obtain ⟨h1, _⟩ := h
        subst h1
        exact Finset.Subset.refl _
      | Select src preds =>
        dsimp only at h
        simp only [Except.ok.injEq, Prod.mk.injEq] at h
        obtain ⟨h1, _⟩ := h
        subst h1
        exact Finset.Subset.refl _
      | Join jl jr preds =>
        dsimp only at h
        simp only [Except.ok.injEq, Prod.mk.injEq] at h
        obtain ⟨h1, _⟩ := h
        subst h1
        exact Finset.Subset.refl _
      | Project src pcols =>
        dsimp only at h
        simp only [Except.ok.injEq, Prod.mk.injEq] at h
        obtain ⟨h1, _⟩ := h
        subst h1
        exact Finset.Subset.refl _
      | FlatMap fi ff =>
        dsimp only at h
        simp only [Except.ok.injEq, Prod.mk.injEq] at h
        obtain ⟨h1, _⟩ := h
        subst h1
        exact Finset.Subset.refl _

/-! ### Well-formedness and the free/att disjointness invariant -/

theorem free_inter_att_of_wf :
    ∀ n : RelExpr, n.wf = true → n.free ∩ n.att = ∅ := by
  intro n
  induction n using RelExpr.wf.induct with
  | case1 t cs =>
    intro _
    simp [RelExpr.free, RelExpr.att]
  | case2 src preds ih =>
    intro _
    show ((RelExpr.free src ∪ predsFree preds) \ src.att) ∩ src.att = ∅
    exact Finset.sdiff_inter_self _ _
  | case3 l r preds ihl ihr =>
    intro _
    show ((RelExpr.free l ∪ RelExpr.free r ∪ predsFree preds) \ (l.att ∪ r.att))
        ∩ (l.att ∪ r.att) = ∅
    exact Finset.sdiff_inter_self _ _
  | case4 src cols ih =>
    intro hwf
    rw [RelExpr.wf] at hwf
    simp only [Bool.and_eq_true, decide_eq_true_eq] at hwf
    obtain ⟨hw, hsub⟩ := hwf
    have hd := ih hw
    show RelExpr.free src ∩ cols = ∅
    rw [Finset.eq_empty_iff_forall_not_mem]
    intro x hx
    rcases Finset.mem_inter.mp hx with ⟨h1, h2⟩
    have : x ∈ RelExpr.free src ∩ src.att := Finset.mem_inter.mpr ⟨h1, hsub h2⟩
    rw [hd] at this
    exact absurd this (Finset.not_mem_empty x)
  | case5 input exprs ih =>
    intro hwf
    rw [RelExpr.wf] at hwf
    simp only [Bool.and_eq_true, decide_eq_true_eq] at hwf
    obtain ⟨hw, hdisj⟩ := hwf
    show ((RelExpr.free input ∪ assignsFree exprs) \ input.att)
        ∩ (input.att ∪ assignIds exprs) = ∅
    rw [Finset.eq_empty_iff_forall_not_mem]
    intro x hx
    rcases Finset.mem_inter.mp hx with ⟨h1, h2⟩
    rcases Finset.mem_sdiff.mp h1 with ⟨h3, h4⟩
    rcases Finset.mem_union.mp h2 with h5 | h5
    · exact h4 h5
    · have : x ∈ assignIds exprs ∩ (RelExpr.free input ∪ assignsFree exprs) :=
        Finset.mem_inter.mpr ⟨h5, h3⟩
      rw [hdisj] at this
      exact absurd this (Finset.not_mem_empty x)
  | case6 input func ihi ihf =>
    intro hwf
    rw [RelExpr.wf] at hwf
    simp only [Bool.and_eq_true, decide_eq_true_eq] at hwf
    obtain ⟨⟨hwi, hwf2⟩, hdisj⟩ := hwf
    have hdf := ihf hwf2
    show ((RelExpr.free input ∪ RelExpr.free func) \ input.att)
        ∩ (input.att ∪ func.att) = ∅
    rw [Finset.eq_empty_iff_forall_not_mem]
    intro x hx
    rcases Finset.mem_inter.mp hx with ⟨h1, h2⟩
    rcases Finset.mem_sdiff.mp h1 with ⟨h3, h4⟩
    rcases Finset.mem_union.mp h2 with h5 | h5
    · exact h4 h5
    · rcases Finset.mem_union.mp h3 with h6 | h6
      · have : x ∈ func.att ∩ RelExpr.free input := Finset.mem_inter.mpr ⟨h5, h6⟩
        rw [hdisj] at this
        exact absurd this (Finset.not_mem_empty x)
      · have : x ∈ RelExpr.free func ∩ func.att := Finset.mem_inter.mpr ⟨h6, h5⟩
        rw [hdf] at this
        exact absurd this (Finset.not_mem_empty x)

theorem noNestedSelects_select (p : RelExpr) (P : List Expr)
    (h : noNestedSelects p = true) :
    noNestedSelects (p.select P) = true := by
  rw [select_eq, noNestedSelects]
  simp [stripSel_isSelectNode, noNestedSelects_stripSel p h]

theorem stripSel_of_nonSelect (r : RelExpr) (h : r.isSelectNode = false) :
    stripSel r = r := by
  cases r <;> simp_all [RelExpr.isSelectNode, stripSel]

theorem stripSel_select (r : RelExpr) (ps : List Expr) :
    stripSel (r.select ps) = stripSel r := by
  rw [select_eq, stripSel]
  exact stripSel_of_nonSelect _ (stripSel_isSelectNode r)

/-! ### Claim theorems -/

/-- Claim C2 (confirmed): with `Decorrelate` enabled and `free(inner) = ∅`,
`flatmap(outer, inner)` is exactly `join(outer, inner, [])`, which is the
`Join` node with an empty predicate list — never a `FlatMap` node; with
`Decorrelate` disabled, `flatmap` always returns the explicit `FlatMap`
node with `outer` as input and `inner` as func.  (`1 ≤ fuel` only rules
out the fuel-exhaustion artifact of the embedding; neither branch of the
source recursion recurses.) -/
theorem c2_flatmap_decorrelation (st : State) (fuel : Nat) (outer inner : RelExpr)
    (ctr : Nat) (hfuel : 1 ≤ fuel) :
    (st.enabled .Decorrelate = true → inner.free = ∅ →
      RelExpr.flatmap st fuel outer inner ctr = .ok (.Join outer inner [], ctr))
    ∧ (st.enabled .Decorrelate = false →
      RelExpr.flatmap st fuel outer inner ctr = .ok (.FlatMap outer inner, ctr)) := by
  obtain ⟨f, rfl⟩ : ∃ f, fuel = f + 1 := ⟨fuel - 1, by omega⟩
  constructor
  · intro hD hfree
    rw [RelExpr.flatmap.eq_def]
    dsimp only
    rw [if_pos hD, if_pos hfree]
    rfl
  · intro hD
    rw [RelExpr.flatmap.eq_def]
    dsimp only
    rw [if_neg (by simp [hD])]

theorem c2_flatmap_decorrelation_witness :
    RelExpr.flatmap ⟨true, true⟩ 1 (.Scan "a" [0]) (.Scan "b" [1]) 4
      = .ok (.Join (.Scan "a" [0]) (.Scan "b" [1]) [], 4)
    ∧ RelExpr.flatmap ⟨true, false⟩ 1 (.Scan "a" [0]) (.Scan "b" [1]) 4
      = .ok (.FlatMap (.Scan "a" [0]) (.Scan "b" [1]), 4) :=
  ⟨(c2_flatmap_decorrelation ⟨true, true⟩ 1 (.Scan "a" [0]) (.Scan "b" [1]) 4
      (by omega)).1 rfl (by decide),
   (c2_flatmap_decorrelation ⟨true, false⟩ 1 (.Scan "a" [0]) (.Scan "b" [1]) 4
      (by omega)).2 rfl⟩

/-- Claim C3 (confirmed): `select(select(p, P1), P2)` is literally the same
tree as `select(p, P1 ++ P2)`; that tree is a single flat `Select` node
carrying the combined predicate list directly over the non-`Select` node
below `p`'s root `Select` chain; and if `p` had no directly-nested
`Select` nodes anywhere, neither does the result. -/
theorem c3_select_merge (p : RelExpr) (P1 P2 : List Expr) :
    (p.select P1).select P2 = p.select (P1 ++ P2)
    ∧ p.select (P1 ++ P2) = .Select (stripSel p) (selChainPreds p ++ (P1 ++ P2))
    ∧ (stripSel p).isSelectNode = false
    ∧ (noNestedSelects p = true →
        noNestedSelects ((p.select P1).select P2) = true) := by
  refine ⟨?_, select_eq p (P1 ++ P2), stripSel_isSelectNode p, ?_⟩
  · rw [select_eq (p.select P1) P2, select_eq p (P1 ++ P2), stripSel_select,
      selChainPreds_select]
    simp
  · intro h
    exact noNestedSelects_select _ _ (noNestedSelects_select _ _ h)

theorem c3_select_merge_witness :
    ((RelExpr.Scan "a" [0]).select [Expr.Int 1]).select [Expr.Int 2]
      = (RelExpr.Scan "a" [0]).select ([Expr.Int 1] ++ [Expr.Int 2])
    ∧ noNestedSelects (((RelExpr.Scan "a" [0]).select [Expr.Int 1]).select
        [Expr.Int 2]) = true :=
  ⟨(c3_select_merge (RelExpr.Scan "a" [0]) [Expr.Int 1] [Expr.Int 2]).1,
   (c3_select_merge (RelExpr.Scan "a" [0]) [Expr.Int 1] [Expr.Int 2]).2.2.2 rfl⟩

/-- Claim C9 (confirmed): hoisting an expression shape with no defined
transformation fails with the distinguished `notImplemented` error (the
`unimplemented!` panic), never a silent fallback.  In the source IR the
shapes with a defined transformation are exactly `Subquery`, `Plus`,
`Int` and `ColRef`, so the one remaining shape is `Eq` — e.g. an equality
containing a subquery.  The error is distinct from the arity violation. -/
theorem c9_hoist_unimplemented (st : State) (fuel : Nat) (source : RelExpr)
    (id ctr : Nat) (l r : Expr) (hfuel : 1 ≤ fuel) :
    RelExpr.hoist st fuel source id (.Eq l r) ctr = .error .notImplemented
    ∧ RErr.notImplemented ≠ RErr.arity := by
  obtain ⟨f, rfl⟩ : ∃ f, fuel = f + 1 := ⟨fuel - 1, by omega⟩
  refine ⟨?_, fun h => RErr.noConfusion h⟩
  rw [RelExpr.hoist.eq_def]

theorem c9_hoist_unimplemented_witness :
    RelExpr.hoist ⟨true, true⟩ 5 (.Scan "s" [0]) 5
        (.Eq (.Int 1) (.Subquery (.Scan "x" [2]))) 10 = .error .notImplemented
    ∧ RErr.notImplemented ≠ RErr.arity :=
  c9_hoist_unimplemented ⟨true, true⟩ 5 (.Scan "s" [0]) 5 10
    (.Int 1) (.Subquery (.Scan "x" [2])) (by omega)

/-- Claim C4 (confirmed): hoisting `Subquery(plan)` when `att(plan)` does
not have exactly one member fails with the `arity` error (the source's
`assert!(att.len() == 1)`), before any rewriting happens; the same
failure surfaces through `map` with `Hoist` enabled; and the arity error
is distinct from the `notImplemented` condition. -/
theorem c4_hoist_arity (st : State) (fuel : Nat) (source plan : RelExpr)
    (id ctr : Nat) (hfuel : 2 ≤ fuel) (hcard : plan.att.card ≠ 1) :
    RelExpr.hoist st fuel source id (.Subquery plan) ctr = .error .arity
    ∧ (st.enabled .Hoist = true →
        RelExpr.map st fuel source [(id, .Subquery plan)] ctr = .error .arity)
    ∧ RErr.arity ≠ RErr.notImplemented := by
  obtain ⟨f, rfl⟩ : ∃ f, fuel = f + 2 := ⟨fuel - 2, by omega⟩
  have hhoist : ∀ g : Nat, RelExpr.hoist st (g + 1) source id (.Subquery plan) ctr
      = .error .arity := by
    intro g
    rw [RelExpr.hoist.eq_def]
    dsimp only
    rw [if_neg hcard]
  refine ⟨hhoist (f + 1), ?_, fun h => RErr.noConfusion h⟩
  intro hH
  rw [RelExpr.map]
  rw [if_neg (by simp), if_pos hH]
  have hx : extractSubq [(id, Expr.Subquery plan)]
      = some (id, Expr.Subquery plan, []) := rfl
  rw [hx]
  dsimp only
  have hmap : RelExpr.map st (f + 1) source [] ctr = .ok (source, ctr) := rfl
  rw [hmap]
  simp only [Bind.bind, Except.bind]
  exact hhoist f

theorem c4_hoist_arity_witness :
    RelExpr.hoist ⟨true, true⟩ 2 (.Scan "s" [0]) 5 (.Subquery (.Scan "x" [2, 3])) 10
      = .error .arity
    ∧ RelExpr.map ⟨true, true⟩ 2 (.Scan "s" [0]) [(5, .Subquery (.Scan "x" [2, 3]))] 10
      = .error .arity
    ∧ RErr.arity ≠ RErr.notImplemented :=
  have h := c4_hoist_arity ⟨true, true⟩ 2 (.Scan "s" [0]) (.Scan "x" [2, 3]) 5 10
    (by omega) (by decide)
  ⟨h.1, h.2.1 rfl, h.2.2⟩

/-- Claim C5 (counterexample): in Scenario B both predicates reference
columns 0 and 1, which are both attributes of the left scan, so both are
pushed to the left; the resulting `Join`'s right input is the bare right
scan, not a `Select` node — the claimed shape "two `Select` nodes, one
per input" does not hold on the code. -/
theorem c5_counterexample :
    RelExpr.join (.Scan "a" [0, 1]) (.Scan "x" [2, 3])
        [Expr.Eq (.ColRef 0) (.Int 100), Expr.Eq (.ColRef 1) (.Int 200)]
      = .Join (.Select (.Scan "a" [0, 1])
          [Expr.Eq (.ColRef 0) (.Int 100), Expr.Eq (.ColRef 1) (.Int 200)])
          (.Scan "x" [2, 3]) []
    ∧ (RelExpr.Scan "x" [2, 3]).isSelectNode = false :=
  ⟨rfl, rfl⟩

/-- Claim C5 (amended): the call yields a `Join` with an empty predicate
list whose left input is a single `Select` carrying both predicates (in
order) over the left scan and whose right input is the unwrapped right
scan — both predicates are bound by the left side, since their free
columns 0 and 1 both belong to `att(scan("a",[0,1]))`. -/
theorem c5_scenario_b_amended :
    RelExpr.join (.Scan "a" [0, 1]) (.Scan "x" [2, 3])
        [Expr.Eq (.ColRef 0) (.Int 100), Expr.Eq (.ColRef 1) (.Int 200)]
      = .Join (.Select (.Scan "a" [0, 1])
          [Expr.Eq (.ColRef 0) (.Int 100), Expr.Eq (.ColRef 1) (.Int 200)])
          (.Scan "x" [2, 3]) []
    ∧ (Expr.Eq (.ColRef 0) (.Int 100)).bound_by (.Scan "a" [0, 1]) = true
    ∧ (Expr.Eq (.ColRef 1) (.Int 200)).bound_by (.Scan "a" [0, 1]) = true :=
  ⟨rfl, by decide, by decide⟩

/-- Claim C1 (counterexample): a predicate whose free column (2) lies in
neither side's attribute set is bound by neither side, so it remains on
the `Join` node while referencing no column of `att(L)` at all — the
unconditional "references columns from both sides" part of the claim
fails on the code. -/
theorem c1_counterexample :
    RelExpr.join (.Scan "a" [0]) (.Scan "b" [1]) [Expr.Eq (.ColRef 2) (.ColRef 2)]
      = .Join (.Scan "a" [0]) (.Scan "b" [1]) [Expr.Eq (.ColRef 2) (.ColRef 2)]
    ∧ (Expr.Eq (.ColRef 2) (.ColRef 2)).free ∩ (RelExpr.Scan "a" [0]).att = ∅ :=
  ⟨rfl, by decide⟩

/-- Claim C1 (amended): `join(L, R, preds)` returns a `Join` node whose
sides keep the attribute sets of `L` and `R`; a predicate remains on the
`Join` exactly when it is bound by neither side alone; a remaining
predicate whose free columns lie within `att(L) ∪ att(R)` references
columns of both sides; every predicate bound by `L` ends up in the
`Select` chain over the left side, and every predicate bound only by `R`
in the `Select` chain over the right side (so a predicate bound by both
sides goes left — predicates are examined in list order, first match
wins). -/
theorem c1_join_pushdown (L R : RelExpr) (preds : List Expr) :
    ∃ L' R' rem, RelExpr.join L R preds = .Join L' R' rem
      ∧ L'.att = L.att ∧ R'.att = R.att
      ∧ (∀ p, p ∈ rem ↔ p ∈ preds ∧ p.bound_by L = false ∧ p.bound_by R = false)
      ∧ (∀ p ∈ rem, p.free ⊆ L.att ∪ R.att →
          (p.free ∩ L.att).Nonempty ∧ (p.free ∩ R.att).Nonempty)
      ∧ (∀ p ∈ preds, p.bound_by L = true → p ∈ selChainPreds L')
      ∧ (∀ p ∈ preds, p.bound_by L = false → p.bound_by R = true →
          p ∈ selChainPreds R') := by
  obtain ⟨L', R', rem, h1, h2, h3, h4, h5, h6, h7, _, _⟩ :=
    joinLoop_spec preds.length L R preds le_rfl
  refine ⟨L', R', rem, h1, h2, h3, ?_, ?_, h6, h7⟩
  · intro p
    constructor
    · intro hp
      exact h4 p hp
    · intro hp
      exact h5 p hp.1 hp.2.1 hp.2.2
  · intro p hp hsub
    obtain ⟨_, hbl, hbr⟩ := h4 p hp
    have hbl' : ¬ p.free ⊆ L.att := by
      intro hc
      rw [Expr.bound_by, decide_eq_false_iff_not] at hbl
      exact hbl hc
    have hbr' : ¬ p.free ⊆ R.att := by
      intro hc
      rw [Expr.bound_by, decide_eq_false_iff_not] at hbr
      exact hbr hc
    constructor
    · obtain ⟨x, hx1, hx2⟩ := Finset.not_subset.mp hbr'
      rcases Finset.mem_union.mp (hsub hx1) with hm | hm
      · exact ⟨x, Finset.mem_inter.mpr ⟨hx1, hm⟩⟩
      · exact absurd hm hx2
    · obtain ⟨x, hx1, hx2⟩ := Finset.not_subset.mp hbl'
      rcases Finset.mem_union.mp (hsub hx1) with hm | hm
      · exact absurd hm hx2
      · exact ⟨x, Finset.mem_inter.mpr ⟨hx1, hm⟩⟩

theorem c1_join_pushdown_witness :
    ((Expr.Eq (.ColRef 0) (.ColRef 1)).free ∩ (RelExpr.Scan "a" [0]).att).Nonempty := by
  obtain ⟨L', R', rem, h1, h2, h3, h4, h5, h6, h7⟩ :=
    c1_join_pushdown (.Scan "a" [0]) (.Scan "b" [1]) [Expr.Eq (.ColRef 0) (.ColRef 1)]
  have hmem : Expr.Eq (.ColRef 0) (.ColRef 1) ∈ rem := by
    rw [h4]
    exact ⟨by simp, by decide, by decide⟩
  exact (h5 _ hmem (by decide)).1

/-- Claim C8 (counterexample): on a raw tree the first part of the claim
fails — a `Map` whose assignment expression references its own newly
introduced id has that id both free and in the attribute set. -/
theorem c8_counterexample :
    ¬ ((RelExpr.Map (.Scan "a" [0]) [(5, .ColRef 5)]).free
        ∩ (RelExpr.Map (.Scan "a" [0]) [(5, .ColRef 5)]).att = ∅) := by
  decide

/-- Claim C8 (amended): under the freshness discipline the Identifier
Allocator maintains for constructor-built plans (`RelExpr.wf`:
`Map`-introduced ids are referenced neither by the map's own assignment
expressions nor free in its input, `Project` keeps only columns of its
source, `Join` children have disjoint attributes, and a `FlatMap` func's
attributes are not free in the outer input), every node satisfies
`free(n) ∩ att(n) = ∅`, and every `Join` node has
`att(left) ∩ att(right) = ∅`. -/
theorem c8_free_att_invariant_amended (n : RelExpr) (h : n.wf = true) :
    n.free ∩ n.att = ∅
    ∧ (∀ l r preds, n = .Join l r preds → l.att ∩ r.att = ∅) := by
  refine ⟨free_inter_att_of_wf n h, ?_⟩
  intro l r preds hn
  subst hn
  rw [RelExpr.wf] at h
  simp only [Bool.and_eq_true, decide_eq_true_eq] at h
  exact h.2

theorem c8_free_att_invariant_amended_witness :
    (RelExpr.Join (.Select (.Scan "a" [0, 1]) [Expr.Eq (.ColRef 0) (.Int 7)])
        (.Scan "b" [2]) []).free
      ∩ (RelExpr.Join (.Select (.Scan "a" [0, 1]) [Expr.Eq (.ColRef 0) (.Int 7)])
        (.Scan "b" [2]) []).att = ∅
    ∧ (RelExpr.Select (.Scan "a" [0, 1]) [Expr.Eq (.ColRef 0) (.Int 7)]).att
      ∩ (RelExpr.Scan "b" [2]).att = ∅ :=
  have h := c8_free_att_invariant_amended
    (.Join (.Select (.Scan "a" [0, 1]) [Expr.Eq (.ColRef 0) (.Int 7)])
      (.Scan "b" [2]) []) (by decide)
  ⟨h.1, h.2 _ _ _ rfl⟩

/-- Claim C7 (counterexample): when the push-through-map optimization
fires, the map's assignments are re-applied on top of the pushed
projection, so the map's introduced ids re-enter the attribute set:
projecting `Map(scan("a",[0,1]), [(2, col 0)])` to `{0}` pushes through
and yields a plan with attribute set `{0, 2}`, not exactly `{0}`. -/
theorem c7_counterexample :
    RelExpr.project ⟨true, true⟩ 2 (.Map (.Scan "a" [0, 1]) [(2, .ColRef 0)]) {0} 9
      = .ok (.Map (.Project (.Scan "a" [0, 1]) {0}) [(2, .ColRef 0)], 9)
    ∧ (RelExpr.Map (.Project (.Scan "a" [0, 1]) {0}) [(2, .ColRef 0)]).att ≠ {0} :=
  ⟨rfl, by decide⟩

/-- Claim C7 (amended): the plan returned by `project(source, cols)`
always has an attribute set containing `cols`; it has attribute set
exactly `cols` (and is the explicit `Project` node, with the counter
untouched) whenever the push-through-map optimization does not fire,
i.e. whenever `source` is not a `Map` whose assignments' free-variable
union covers `cols`.  When the optimization does fire, the map's
introduced ids are re-added on top, so the attribute set can exceed
`cols`. -/
theorem c7_project_att_amended (st : State) (fuel : Nat) (source : RelExpr)
    (cols : Finset Nat) (ctr : Nat) (p : RelExpr) (c : Nat)
    (h : RelExpr.project st fuel source cols ctr = .ok (p, c)) :
    cols ⊆ p.att
    ∧ ((∀ input exprs, source = RelExpr.Map input exprs →
          ¬ cols ⊆ assignsFree exprs) →
        p = .Project source cols ∧ p.att = cols ∧ c = ctr) := by
  refine ⟨(cluster_att_mono st fuel).2.2.2 source cols ctr p c h, ?_⟩
  intro hnp
  cases fuel with
  | zero => simp [RelExpr.project] at h
  | succ f =>
    rw [RelExpr.project.eq_def] at h
    dsimp only at h
    cases source with
    | Map input exprs =>
      dsimp only at h
      rw [if_neg (hnp input exprs rfl)] at h
      simp only [Except.ok.injEq, Prod.mk.injEq] at h
      obtain ⟨h1, h2⟩ := h
      refine ⟨h1.symm, ?_, h2.symm⟩
      rw [← h1]
      rfl
    | Scan t cs =>
      simp only [Except.ok.injEq, Prod.mk.injEq] at h
      obtain ⟨h1, h2⟩ := h
      exact ⟨h1.symm, by rw [← h1]; rfl, h2.symm⟩
    | Select src preds =>
      simp only [Except.ok.injEq, Prod.mk.injEq] at h
      obtain ⟨h1, h2⟩ := h
      exact ⟨h1.symm, by rw [← h1]; rfl, h2.symm⟩
    | Join jl jr preds =>
      simp only [Except.ok.injEq, Prod.mk.injEq] at h
      obtain ⟨h1, h2⟩ := h
      exact ⟨h1.symm, by rw [← h1]; rfl, h2.symm⟩
    | Project src pcols =>
      simp only [Except.ok.injEq, Prod.mk.injEq] at h
      obtain ⟨h1, h2⟩ := h
      exact ⟨h1.symm, by rw [← h1]; rfl, h2.symm⟩
    | FlatMap fi ff =>
      simp only [Except.ok.injEq, Prod.mk.injEq] at h
      obtain ⟨h1, h2⟩ := h
      exact ⟨h1.symm, by rw [← h1]; rfl, h2.symm⟩

theorem c7_project_att_amended_witness :
    ({0} : Finset Nat) ⊆ (RelExpr.Project (.Scan "a" [0, 1]) {0}).att
    ∧ (RelExpr.Project (.Scan "a" [0, 1]) ({0} : Finset Nat)).att = {0} :=
  have h := c7_project_att_amended ⟨true, true⟩ 1 (.Scan "a" [0, 1]) {0} 3
    (.Project (.Scan "a" [0, 1]) {0}) 3 rfl
  ⟨h.1, (h.2 (fun _ _ hc => RelExpr.noConfusion hc)).2.1⟩

/-- Claim C10 (confirmed): hoisting `Subquery(plan)` into `source` under
`id` when `att(plan) = {c}` copies the sole output column `c` into `id`
via an inner map and combines with `source` via `flatmap`; no projection
is applied afterwards, so the attribute set of the result contains `c`
in addition to `id` and `att(source)`.  The same holds when the hoist is
reached through `map(source, [(id, Subquery(plan))])` with `Hoist`
enabled. -/
theorem c10_hoist_subquery_att (st : State) (fuel : Nat) (source plan : RelExpr)
    (id ctr cc : Nat) (p : RelExpr) (c : Nat) (hatt : plan.att = {cc}) :
    (RelExpr.hoist st fuel source id (.Subquery plan) ctr = .ok (p, c) →
      source.att ∪ {id} ∪ {cc} ⊆ p.att)
    ∧ (st.enabled .Hoist = true →
        RelExpr.map st fuel source [(id, .Subquery plan)] ctr = .ok (p, c) →
        source.att ∪ {id} ∪ {cc} ⊆ p.att) := by
  have hoistCase : ∀ g : Nat,
      RelExpr.hoist st g source id (.Subquery plan) ctr = .ok (p, c) →
      source.att ∪ {id} ∪ {cc} ⊆ p.att := by
    intro g h
    cases g with
    | zero => simp [RelExpr.hoist] at h
    | succ f =>
      rw [RelExpr.hoist.eq_def] at h
      dsimp only at h
      rw [hatt] at h
      rw [if_pos (by simp)] at h
      rw [pickOne_singleton] at h
      cases hm : RelExpr.map st f plan [(id, Expr.ColRef cc)] ctr with
      | error err => rw [hm] at h; simp [Bind.bind, Except.bind] at h
      | ok v =>
        obtain ⟨rhs, c1⟩ := v
        rw [hm] at h
        simp only [Bind.bind, Except.bind] at h
        have h5 := (cluster_att_mono st f).1 plan [(id, Expr.ColRef cc)] ctr rhs c1 hm
        have h6 := (cluster_att_mono st f).2.2.1 source rhs c1 p c h
        intro x hx
        rcases Finset.mem_union.mp hx with hx1 | hx1
        · rcases Finset.mem_union.mp hx1 with hx2 | hx2
          · exact h6 (Finset.mem_union_left _ hx2)
          · have hxid : x = id := Finset.mem_singleton.mp hx2
            subst hxid
            have : x ∈ rhs.att := h5 (Finset.mem_union_right _ (by simp [assignIds]))
            exact h6 (Finset.mem_union_right _ this)
        · have hxcc : x = cc := Finset.mem_singleton.mp hx1
          subst hxcc
          have : x ∈ rhs.att := h5 (Finset.mem_union_left _ (by rw [hatt]; simp))
          exact h6 (Finset.mem_union_right _ this)
  refine ⟨hoistCase fuel, ?_⟩
  intro hH h
  cases fuel with
  | zero => simp [RelExpr.map] at h
  | succ f =>
    rw [RelExpr.map] at h
    rw [if_neg (by simp), if_pos hH] at h
    have hx : extractSubq [(id, Expr.Subquery plan)]
        = some (id, Expr.Subquery plan, []) := rfl
    rw [hx] at h
    dsimp only at h
    cases f with
    | zero => simp [RelExpr.map, Bind.bind, Except.bind] at h
    | succ f2 =>
      have hmap : RelExpr.map st (f2 + 1) source [] ctr = .ok (source, ctr) := rfl
      rw [hmap] at h
      simp only [Bind.bind, Except.bind] at h
      exact hoistCase (f2 + 1) h

theorem c10_hoist_subquery_att_witness :
    (RelExpr.Scan "s" [0]).att ∪ {5} ∪ {7}
      ⊆ (RelExpr.Join (.Scan "s" [0]) (.Map (.Scan "x" [7]) [(5, .ColRef 7)]) []).att :=
  (c10_hoist_subquery_att ⟨true, true⟩ 5 (.Scan "s" [0]) (.Scan "x" [7]) 5 10 7
    (.Join (.Scan "s" [0]) (.Map (.Scan "x" [7]) [(5, .ColRef 7)]) []) 10 rfl).1 rfl

/-- Claim C6 (counterexample): for a general `Plus(l, r)` the claim's
"allocates exactly two fresh ids" fails — hoisting
`Plus(Plus(lit 1, lit 2), lit 3)` starting from counter 10 finishes with
counter 14: the nested `Plus` allocates two further ids beyond the two
allocated at the top level. -/
theorem c6_counterexample :
    Except.map Prod.snd
        (RelExpr.hoist ⟨true, true⟩ 9 (.Scan "s" [0]) 5
          (.Plus (.Plus (.Int 1) (.Int 2)) (.Int 3)) 10)
      = .ok 14
    ∧ (14 : Nat) ≠ 10 + 2 :=
  ⟨rfl, by omega⟩

/-- Claim C6 (amended): hoisting `Plus(l, r)` into `source` under `id`
allocates the two fresh ids `ctr` and `ctr + 1` at the `Plus` level,
hoists `l` under the first and then `r` under the second *on top of the
left-hoist's output*, maps `Plus(col ctr, col (ctr+1))` into `id`, and
projects down to `att(source) ∪ {id}`; sub-hoists may allocate further
ids, but for the exemplified shape `Plus(lit v, Subquery(plan))` with a
single-column scan as the nested plan exactly two ids in total are
allocated (final counter `ctr + 2`), and the result is precisely the
`Project`-over-`Map`-over-`Join` tree below: the left-hoist output
`Map(source, [(ctr, lit v)])` is the join's left input (so the
right-hoist saw the left-hoist's output, not the pre-hoist source), the
final map's expression references both fresh ids, and the final
projection keeps `att(source) ∪ {id}`, discarding both fresh ids.
(Shown with `Decorrelate` enabled, as in the source's `main`.) -/
theorem c6_hoist_plus_amended (st : State) (fuel : Nat) (source : RelExpr)
    (id ctr : Nat) (v : I64) (t : String) (cc : Nat)
    (hdec : st.decorrelateOn = true) (hfuel : 3 ≤ fuel)
    (hid1 : id ≠ ctr) (hid2 : id ≠ ctr + 1) :
    RelExpr.hoist st fuel source id
        (.Plus (.Int v) (.Subquery (.Scan t [cc]))) ctr
      = .ok (.Project (.Map (.Join (.Map source [(ctr, .Int v)])
              (.Map (.Scan t [cc]) [(ctr + 1, .ColRef cc)]) [])
              [(id, Expr.Plus (.ColRef ctr) (.ColRef (ctr + 1)))])
            (source.att ∪ {id}), ctr + 2) := by
  obtain ⟨f, rfl⟩ : ∃ f, fuel = f + 3 := ⟨fuel - 3, by omega⟩
  have hmapNoSubq : ∀ (g : Nat) (s0 : RelExpr) (i0 : Nat) (e0 : Expr) (c0 : Nat),
      e0.has_subquery = false →
      RelExpr.map st (g + 1) s0 [(i0, e0)] c0 = .ok (.Map s0 [(i0, e0)], c0) := by
    intro g s0 i0 e0 c0 hsq
    rw [RelExpr.map]
    rw [if_neg (by simp)]
    by_cases hH : st.enabled .Hoist
    · rw [if_pos hH]
      have hx : extractSubq [(i0, e0)] = none := by
        rw [extractSubq, if_neg (by simp [hsq])]
        rfl
      rw [hx]
    · rw [if_neg hH]
  have h1 : RelExpr.hoist st (f + 2) source ctr (.Int v) (ctr + 2)
      = .ok (.Map source [(ctr, .Int v)], ctr + 2) := by
    rw [RelExpr.hoist.eq_def]
    dsimp only
    exact hmapNoSubq _ _ _ _ _ rfl
  have hattScan : (RelExpr.Scan t [cc]).att = {cc} := by
    simp [RelExpr.att]
  have h2 : RelExpr.hoist st (f + 2) (.Map source [(ctr, .Int v)]) (ctr + 1)
        (.Subquery (.Scan t [cc])) (ctr + 2)
      = .ok (.Join (.Map source [(ctr, .Int v)])
          (.Map (.Scan t [cc]) [(ctr + 1, .ColRef cc)]) [], ctr + 2) := by
    rw [RelExpr.hoist.eq_def]
    dsimp only
    rw [hattScan, if_pos (by simp), pickOne_singleton]
    rw [hmapNoSubq f (.Scan t [cc]) (ctr + 1) (.ColRef cc) (ctr + 2) rfl]
    simp only [Bind.bind, Except.bind]
    rw [RelExpr.flatmap.eq_def]
    dsimp only
    rw [if_pos (show st.enabled .Decorrelate = true from by
      simp [State.enabled, hdec])]
    rw [if_pos (show (RelExpr.Map (.Scan t [cc]) [(ctr + 1, .ColRef cc)]).free = ∅
      from by simp [RelExpr.free, assignsFree, Expr.free, RelExpr.att])]
    rfl
  have h3 : RelExpr.map st (f + 2)
        (.Join (.Map source [(ctr, .Int v)])
          (.Map (.Scan t [cc]) [(ctr + 1, .ColRef cc)]) [])
        [(id, Expr.Plus (.ColRef ctr) (.ColRef (ctr + 1)))] (ctr + 2)
      = .ok (.Map (.Join (.Map source [(ctr, .Int v)])
          (.Map (.Scan t [cc]) [(ctr + 1, .ColRef cc)]) [])
          [(id, Expr.Plus (.ColRef ctr) (.ColRef (ctr + 1)))], ctr + 2) :=
    hmapNoSubq _ _ _ _ _ rfl
  have h4 : RelExpr.project st (f + 2)
        (.Map (.Join (.Map source [(ctr, .Int v)])
          (.Map (.Scan t [cc]) [(ctr + 1, .ColRef cc)]) [])
          [(id, Expr.Plus (.ColRef ctr) (.ColRef (ctr + 1)))])
        (source.att ∪ {id}) (ctr + 2)
      = .ok (.Project (.Map (.Join (.Map source [(ctr, .Int v)])
          (.Map (.Scan t [cc]) [(ctr + 1, .ColRef cc)]) [])
          [(id, Expr.Plus (.ColRef ctr) (.ColRef (ctr + 1)))])
          (source.att ∪ {id}), ctr + 2) := by
    rw [RelExpr.project.eq_def]
    dsimp only
    rw [if_neg]
    intro hc
    have hidmem : id ∈ assignsFree [(id, Expr.Plus (.ColRef ctr) (.ColRef (ctr + 1)))] :=
      hc (Finset.mem_union_right _ (Finset.mem_singleton_self id))
    simp [assignsFree, Expr.free] at hidmem
    rcases hidmem with hcase | hcase
    · exact hid1 hcase
    · exact hid2 hcase
  rw [RelExpr.hoist.eq_def]
  dsimp only
  rw [h1]
  simp only [Bind.bind, Except.bind]
  rw [h2]
  simp only [Bind.bind, Except.bind]
  rw [h3]
  simp only [Bind.bind, Except.bind]
  exact h4

theorem c6_hoist_plus_amended_witness :
    RelExpr.hoist ⟨true, true⟩ 9 (.Scan "s" [7, 8]) 5
        (.Plus (.Int 3) (.Subquery (.Scan "x" [9]))) 20
      = .ok (.Project (.Map (.Join (.Map (.Scan "s" [7, 8]) [(20, .Int 3)])
              (.Map (.Scan "x" [9]) [(21, .ColRef 9)]) [])
              [(5, Expr.Plus (.ColRef 20) (.ColRef 21))])
            ((RelExpr.Scan "s" [7, 8]).att ∪ {5}), 22) :=
  c6_hoist_plus_amended ⟨true, true⟩ 9 (.Scan "s" [7, 8]) 5 20 3 "x" 9
    rfl (by omega) (by omega) (by omega)
